import Mathlib

/-!
# Equal-ratio channel selection: verification of the notebook's pruning loop

This file embeds the channel-selection loop of the pruning notebook:

```
all_channel_indices_to_prune: List[int] = []
for _, labels, criteria in iterate_over_gate_criteria(pruning_info):
    criteria: np.ndarray = np.array(criteria)
    prune_channels_num = int(len(criteria) * pruning_ratio)
    index_for_pruning = np.argsort(criteria)[:prune_channels_num]
    all_channel_indices_to_prune += np.array(labels)[index_for_pruning].tolist()
```

Modelling choices:
* criteria scores are rationals (exact arithmetic; the spec's claims are
  stated over the mathematical floor of the exact product);
* Python `int(x)` truncates toward zero, embedded as `intTrunc`;
* the Python slice `l[:m]` accepts negative `m`, embedded as `pySliceTo`;
* `np.argsort` produces a permutation of the index range that sorts the
  criteria ascending, embedded via `List.insertionSort` on indices;
* numpy fancy indexing `np.array(labels)[idx]` raises `IndexError` when an
  index is out of range, embedded as an `Option`-returning lookup
  (`lookupAll`); a raised exception aborts the whole loop with no output,
  so the loop itself is `Option`-valued and short-circuits.
-/

/-- Python `int()` applied to an exact rational: truncation toward zero. -/
def intTrunc (q : ℚ) : ℤ :=
  if 0 ≤ q then ⌊q⌋ else -⌊-q⌋

/-- Python slice `l[:m]` for an integer bound `m`: a nonnegative bound

takes the first `m.toNat` elements, a negative bound drops the last
`(-m).toNat` elements (clamped at the empty list). -/
def pySliceTo {α : Type} (l : List α) (m : ℤ) : List α :=
  if 0 ≤ m then l.take m.toNat else l.take (l.length - (-m).toNat)

/-- The comparison `np.argsort` sorts indices by: criteria value at the
index, ascending (out-of-range reads default to 0 but never occur on the
index range). -/
def criteriaLe (c : List ℚ) (i j : ℕ) : Prop :=
  c.getD i 0 ≤ c.getD j 0

instance (c : List ℚ) : DecidableRel (criteriaLe c) :=
  fun i j => inferInstanceAs (Decidable (c.getD i 0 ≤ c.getD j 0))

/-- `np.argsort(criteria)`: the indices `0, …, len-1` sorted so that the
criteria values they point to are ascending. -/
def argsort (c : List ℚ) : List ℕ :=
  (List.range c.length).insertionSort (criteriaLe c)

/-- `prune_channels_num = int(len(criteria) * pruning_ratio)`. -/
def prune_channels_num (c : List ℚ) (r : ℚ) : ℤ :=
  intTrunc ((c.length : ℚ) * r)

/-- `index_for_pruning = np.argsort(criteria)[:prune_channels_num]`. -/
def index_for_pruning (c : List ℚ) (r : ℚ) : List ℕ :=
  pySliceTo (argsort c) (prune_channels_num c r)

/-- numpy fancy indexing `np.array(labels)[indices].tolist()`: reads the
label at every index in order; an out-of-range index raises, modelled as
`none`. -/
def lookupAll (labels : List ℤ) : List ℕ → Option (List ℤ)
  | [] => some []
  | i :: rest => do
    let x ← labels[i]?
    let xs ← lookupAll labels rest
    pure (x :: xs)

/-- One iteration of the loop body: the labels contributed by a single
tensor, `np.array(labels)[index_for_pruning].tolist()`. -/
def selectTensorLabels (labels : List ℤ) (c : List ℚ) (r : ℚ) : Option (List ℤ) :=
  lookupAll labels (index_for_pruning c r)

/-- The whole loop: iterate over the `(tensor_name, labels, criteria)`
triples, concatenating each tensor's selected labels; an `IndexError` in
any iteration aborts the loop with no output. -/
def all_channel_indices_to_prune :
    List (String × List ℤ × List ℚ) → ℚ → Option (List ℤ)
  | [], _ => some []
  | (_, labels, c) :: rest, r => do
    let head ← selectTensorLabels labels c r
    let tail ← all_channel_indices_to_prune rest r
    pure (head ++ tail)

/-- The selection algorithm for one tensor as the specification words it:
compute `k = floor(len(criteria) * r)` (mathematical floor), sort the
criteria ascending, take the indices of the `k` smallest criteria values,
and map those indices into the label sequence. -/
def specSelectTensor (labels : List ℤ) (c : List ℚ) (r : ℚ) : List ℤ :=
  let k : ℕ := (⌊(c.length : ℚ) * r⌋).toNat
  ((argsort c).take k).map (fun i => labels.getD i 0)

/-- The whole selection step as the specification words it: the
concatenation of every tensor's selected labels. -/
def specSelect (triples : List (String × List ℤ × List ℚ)) (r : ℚ) : List ℤ :=
  (triples.map (fun t => specSelectTensor t.2.1 t.2.2 r)).flatten

/-! ## Basic lemmas about the embedded operations -/

instance (c : List ℚ) : IsTotal ℕ (criteriaLe c) :=
  ⟨fun _ _ => le_total _ _⟩

instance (c : List ℚ) : IsTrans ℕ (criteriaLe c) :=
  ⟨fun _ _ _ h₁ h₂ => le_trans h₁ h₂⟩

lemma intTrunc_of_nonneg {q : ℚ} (h : 0 ≤ q) : intTrunc q = ⌊q⌋ := by
  simp [intTrunc, h]

lemma pySliceTo_eq_take {α : Type} (l : List α) (m : ℤ) :
    pySliceTo l m = l.take (if 0 ≤ m then m.toNat else l.length - (-m).toNat) := by
  unfold pySliceTo
  split <;> rfl

lemma argsort_perm (c : List ℚ) : (argsort c).Perm (List.range c.length) :=
  List.perm_insertionSort (criteriaLe c) (List.range c.length)

lemma argsort_nodup (c : List ℚ) : (argsort c).Nodup :=
  (argsort_perm c).nodup_iff.mpr (List.nodup_range _)

lemma argsort_length (c : List ℚ) : (argsort c).length = c.length := by
  simpa using (argsort_perm c).length_eq

lemma mem_argsort {c : List ℚ} {i : ℕ} : i ∈ argsort c ↔ i < c.length := by
  rw [(argsort_perm c).mem_iff, List.mem_range]

lemma argsort_sorted (c : List ℚ) : List.Sorted (criteriaLe c) (argsort c) :=
  List.sorted_insertionSort (criteriaLe c) (List.range c.length)

lemma index_for_pruning_eq_take (c : List ℚ) (r : ℚ) :
    ∃ k, index_for_pruning c r = (argsort c).take k := by
  unfold index_for_pruning
  exact ⟨_, pySliceTo_eq_take (argsort c) (prune_channels_num c r)⟩

lemma index_for_pruning_sublist (c : List ℚ) (r : ℚ) :
    (index_for_pruning c r).Sublist (argsort c) := by
  obtain ⟨k, hk⟩ := index_for_pruning_eq_take c r
  rw [hk]
  exact List.take_sublist k (argsort c)

lemma index_for_pruning_nodup (c : List ℚ) (r : ℚ) :
    (index_for_pruning c r).Nodup :=
  (argsort_nodup c).sublist (index_for_pruning_sublist c r)

lemma mem_index_for_pruning_lt {c : List ℚ} {r : ℚ} {i : ℕ}
    (h : i ∈ index_for_pruning c r) : i < c.length :=
  mem_argsort.mp ((index_for_pruning_sublist c r).mem h)

lemma index_for_pruning_length_le (c : List ℚ) (r : ℚ) :
    (index_for_pruning c r).length ≤ c.length := by
  calc (index_for_pruning c r).length
      ≤ (argsort c).length := (index_for_pruning_sublist c r).length_le
    _ = c.length := argsort_length c

/-- Under a ratio in `(0,1)` the slice bound `int(len * r)` is exactly the
mathematical floor and it never exceeds the criteria length, so the slice
keeps exactly `⌊len * r⌋` indices. -/
lemma index_for_pruning_length {c : List ℚ} {r : ℚ} (h0 : 0 < r) (h1 : r < 1) :
    (index_for_pruning c r).length = (⌊(c.length : ℚ) * r⌋).toNat := by
  have hq : (0 : ℚ) ≤ (c.length : ℚ) * r :=
    mul_nonneg (by positivity) h0.le
  have hfl : (0 : ℤ) ≤ ⌊(c.length : ℚ) * r⌋ := Int.floor_nonneg.mpr hq
  have hle : ⌊(c.length : ℚ) * r⌋ ≤ (c.length : ℤ) := by
    calc ⌊(c.length : ℚ) * r⌋ ≤ ⌊(c.length : ℚ)⌋ :=
          Int.floor_le_floor (mul_le_of_le_one_right (by positivity) h1.le)
      _ = (c.length : ℤ) := Int.floor_natCast _
  have htn : (⌊(c.length : ℚ) * r⌋).toNat ≤ c.length := by
    omega
  unfold index_for_pruning prune_channels_num
  rw [intTrunc_of_nonneg hq, pySliceTo_eq_take, if_pos hfl, List.length_take,
    argsort_length]
  omega

/-- The key ordering fact: every index kept by the slice points to a
criteria value that is `≤` the value at any in-range index the slice drops. -/
lemma selected_le_unselected {c : List ℚ} {r : ℚ} {i j : ℕ}
    (hi : i ∈ index_for_pruning c r) (hj : j < c.length)
    (hj' : j ∉ index_for_pruning c r) : c.getD i 0 ≤ c.getD j 0 := by
  obtain ⟨k, hk⟩ := index_for_pruning_eq_take c r
  have hsplit : (argsort c).take k ++ (argsort c).drop k = argsort c :=
    List.take_append_drop k (argsort c)
  have hpw : ((argsort c).take k ++ (argsort c).drop k).Pairwise (criteriaLe c) := by
    rw [hsplit]
    exact argsort_sorted c
  have hjdrop : j ∈ (argsort c).drop k := by
    have hjmem : j ∈ argsort c := mem_argsort.mpr hj
    rw [← hsplit] at hjmem
    rcases List.mem_append.mp hjmem with h | h
    · exact absurd (hk ▸ h) hj'
    · exact h
  have := (List.pairwise_append.mp hpw).2.2
  exact this i (hk ▸ hi) j hjdrop

/-! ## Lemmas about the fancy-indexing lookup -/

lemma lookupAll_eq_map {labels : List ℤ} {idx : List ℕ}
    (h : ∀ i ∈ idx, i < labels.length) :
    lookupAll labels idx = some (idx.map (fun i => labels.getD i 0)) := by
  induction idx with
  | nil => rfl
  | cons i rest ih =>
    have hi : i < labels.length := h i (List.mem_cons_self i rest)
    have hrest : ∀ j ∈ rest, j < labels.length :=
      fun j hj => h j (List.mem_cons_of_mem i hj)
    simp [lookupAll, ih hrest, List.getElem?_eq_getElem hi, Option.bind,
      List.getD_eq_getElem _ _ hi]

lemma lookupAll_length {labels : List ℤ} {idx : List ℕ} {out : List ℤ}
    (h : lookupAll labels idx = some out) : out.length = idx.length := by
  induction idx generalizing out with
  | nil =>
    have h' : ([] : List ℤ) = out := Option.some.inj h
    simp [← h']
  | cons i rest ih =>
    cases hx : labels[i]? with
    | none => simp [lookupAll, hx] at h
    | some x =>
      cases hxs : lookupAll labels rest with
      | none => simp [lookupAll, hx, hxs] at h
      | some xs =>
        have hout : x :: xs = out := by simpa [lookupAll, hx, hxs] using h
        simp [← hout, ih hxs]

lemma lookupAll_eq_none {labels : List ℤ} {idx : List ℕ} {i : ℕ}
    (hi : i ∈ idx) (h : labels.length ≤ i) : lookupAll labels idx = none := by
  induction idx with
  | nil => cases hi
  | cons j rest ih =>
    rcases List.mem_cons.mp hi with rfl | hmem
    · simp [lookupAll, List.getElem?_eq_none h]
    · cases hj : labels[j]? with
      | none => simp [lookupAll, hj]
      | some x => simp [lookupAll, hj, ih hmem]

/-- Unfolding the loop one iteration. -/
lemma all_channel_cons (name : String) (labels : List ℤ) (c : List ℚ)
    (rest : List (String × List ℤ × List ℚ)) (r : ℚ) :
    all_channel_indices_to_prune ((name, labels, c) :: rest) r =
      (selectTensorLabels labels c r).bind (fun head =>
        (all_channel_indices_to_prune rest r).bind (fun tail =>
          some (head ++ tail))) := rfl

/-- For a nonnegative ratio the Python slice bound is the mathematical
floor of the exact product, and the slice is a `take`. -/
lemma index_for_pruning_of_nonneg {c : List ℚ} {r : ℚ} (h0 : 0 ≤ r) :
    index_for_pruning c r = (argsort c).take (⌊(c.length : ℚ) * r⌋).toNat := by
  have hq : (0 : ℚ) ≤ (c.length : ℚ) * r := mul_nonneg (by positivity) h0
  have hfl : (0 : ℤ) ≤ ⌊(c.length : ℚ) * r⌋ := Int.floor_nonneg.mpr hq
  unfold index_for_pruning prune_channels_num
  rw [intTrunc_of_nonneg hq, pySliceTo_eq_take, if_pos hfl]

/-- When the labels cover every selectable index, the loop body succeeds
and returns exactly the labels at the selected indices. -/
lemma selectTensorLabels_eq_map {labels : List ℤ} {c : List ℚ} (r : ℚ)
    (hlen : c.length ≤ labels.length) :
    selectTensorLabels labels c r =
      some ((index_for_pruning c r).map (fun i => labels.getD i 0)) :=
  lookupAll_eq_map (fun _ hi => lt_of_lt_of_le (mem_index_for_pruning_lt hi) hlen)

/-- The loop body agrees with the specification's per-tensor algorithm
when the labels cover the criteria and the ratio is nonnegative. -/
lemma selectTensorLabels_eq_spec {labels : List ℤ} {c : List ℚ} {r : ℚ}
    (hlen : c.length ≤ labels.length) (h0 : 0 ≤ r) :
    selectTensorLabels labels c r = some (specSelectTensor labels c r) := by
  rw [selectTensorLabels_eq_map r hlen]
  simp only [specSelectTensor, index_for_pruning_of_nonneg h0]

/-- The loop distributes over concatenation of the input triples. -/
lemma all_channel_append (t₁ t₂ : List (String × List ℤ × List ℚ)) (r : ℚ) :
    all_channel_indices_to_prune (t₁ ++ t₂) r =
      (all_channel_indices_to_prune t₁ r).bind (fun o₁ =>
        (all_channel_indices_to_prune t₂ r).bind (fun o₂ => some (o₁ ++ o₂))) := by
  induction t₁ with
  | nil =>
    cases h : all_channel_indices_to_prune t₂ r <;>
      simp [all_channel_indices_to_prune, h]
  | cons t rest ih =>
    obtain ⟨name, labels, c⟩ := t
    rw [List.cons_append, all_channel_cons, all_channel_cons, ih]
    cases selectTensorLabels labels c r <;>
      cases all_channel_indices_to_prune rest r <;>
        cases all_channel_indices_to_prune t₂ r <;> simp [List.append_assoc]

/-- Total output length of the loop: the sum over the tensors of the
floor counts, whenever every label sequence covers its criteria. -/
lemma all_channel_total_length (r : ℚ) (h0 : 0 < r) (h1 : r < 1) :
    ∀ triples : List (String × List ℤ × List ℚ),
      (∀ t ∈ triples, t.2.2.length ≤ t.2.1.length) →
      ∃ out, all_channel_indices_to_prune triples r = some out ∧
        (out.length : ℤ) =
          (triples.map (fun t => ⌊(t.2.2.length : ℚ) * r⌋)).sum := by
  intro triples
  induction triples with
  | nil => exact fun _ => ⟨[], rfl, by simp⟩
  | cons t rest ih =>
    intro hlen
    obtain ⟨name, labels, c⟩ := t
    have hhead := selectTensorLabels_eq_map r
      (hlen (name, labels, c) (List.mem_cons_self _ _))
    obtain ⟨tail, htail, htlen⟩ :=
      ih (fun t ht => hlen t (List.mem_cons_of_mem _ ht))
    refine ⟨(index_for_pruning c r).map (fun i => labels.getD i 0) ++ tail, ?_, ?_⟩
    · rw [all_channel_cons, hhead, htail]
      rfl
    · have hnn : (0 : ℤ) ≤ ⌊(c.length : ℚ) * r⌋ :=
        Int.floor_nonneg.mpr (mul_nonneg (by positivity) h0.le)
      simp only [List.length_append, List.length_map, List.map_cons, List.sum_cons]
      rw [index_for_pruning_length h0 h1]
      push_cast [Int.toNat_of_nonneg hnn]
      rw [htlen]

/-! ## Claim theorems -/

/-- C1: on triples whose label and criteria sequences have equal lengths
and a ratio in `(0,1)`, the loop follows the reference algorithm: per
tensor it keeps the indices of the `⌊len * r⌋` smallest criteria values
and maps them into the label sequence. -/
theorem c1_follows_reference_algorithm
    (triples : List (String × List ℤ × List ℚ)) (r : ℚ)
    (hlen : ∀ t ∈ triples, t.2.1.length = t.2.2.length)
    (h0 : 0 < r) (_h1 : r < 1) :
    all_channel_indices_to_prune triples r = some (specSelect triples r) := by
  induction triples with
  | nil => rfl
  | cons t rest ih =>
    obtain ⟨name, labels, c⟩ := t
    have h₁ : c.length ≤ labels.length :=
      (hlen (name, labels, c) (List.mem_cons_self _ _)).ge
    have hrest : ∀ t ∈ rest, t.2.1.length = t.2.2.length :=
      fun t ht => hlen t (List.mem_cons_of_mem _ ht)
    rw [all_channel_cons, selectTensorLabels_eq_spec h₁ h0.le, ih hrest]
    simp [specSelect]

theorem c1_follows_reference_algorithm_witness :
    all_channel_indices_to_prune
        [("t", [10, 11, 12, 13], [1/2, 1/10, 9/10, 3/10])] (1/2)
      = some (specSelect [("t", [10, 11, 12, 13], [1/2, 1/10, 9/10, 3/10])] (1/2)) :=
  c1_follows_reference_algorithm _ _
    (by
      rintro t ht
      rcases List.mem_singleton.mp ht with rfl
      rfl)
    (by norm_num) (by norm_num)

/-- C2: with a ratio in `(0,1)`, each successful tensor iteration selects
exactly `⌊len(criteria) * r⌋` labels (mathematical floor of the exact
product). -/
theorem c2_count_eq_floor (labels : List ℤ) (c : List ℚ) (r : ℚ) (out : List ℤ)
    (h0 : 0 < r) (h1 : r < 1)
    (hout : selectTensorLabels labels c r = some out) :
    (out.length : ℤ) = ⌊(c.length : ℚ) * r⌋ := by
  rw [lookupAll_length hout, index_for_pruning_length h0 h1]
  exact Int.toNat_of_nonneg (Int.floor_nonneg.mpr (mul_nonneg (by positivity) h0.le))

theorem c2_count_eq_floor_witness :
    ((([11, 13] : List ℤ).length : ℤ)
      = ⌊((([1/2, 1/10, 9/10, 3/10] : List ℚ).length : ℚ) * (1/2))⌋) :=
  c2_count_eq_floor [10, 11, 12, 13] [1/2, 1/10, 9/10, 3/10] (1/2) [11, 13]
    (by norm_num) (by norm_num)
    (by norm_num [selectTensorLabels, index_for_pruning, argsort,
      prune_channels_num, intTrunc, pySliceTo, criteriaLe, lookupAll,
      List.range_succ, List.insertionSort, List.orderedInsert])

/-- C3: within one tensor, the criteria value at every selected index is
at most the criteria value at any in-range index the selector did not
pick (lowest-score-first selection). -/
theorem c3_selected_le_unselected (c : List ℚ) (r : ℚ) (i j : ℕ)
    (hi : i ∈ index_for_pruning c r) (hj : j < c.length)
    (hj' : j ∉ index_for_pruning c r) :
    c.getD i 0 ≤ c.getD j 0 :=
  selected_le_unselected hi hj hj'

theorem c3_selected_le_unselected_witness :
    ([1/2, 1/10, 9/10, 3/10] : List ℚ).getD 1 0
      ≤ ([1/2, 1/10, 9/10, 3/10] : List ℚ).getD 0 0 :=
  c3_selected_le_unselected [1/2, 1/10, 9/10, 3/10] (1/2) 1 0
    (by
      norm_num [index_for_pruning, argsort, prune_channels_num, intTrunc,
        pySliceTo, criteriaLe, List.range_succ, List.insertionSort,
        List.orderedInsert]
      decide)
    (by norm_num)
    (by
      norm_num [index_for_pruning, argsort, prune_channels_num, intTrunc,
        pySliceTo, criteriaLe, List.range_succ, List.insertionSort,
        List.orderedInsert]
      decide)

/-- C4 counterexample: the loop performs no validation. At the ratio
`3/2`, outside `(0,1)`, it still produces a selection (the whole sorted
index list survives the over-long slice), and a triple whose label
sequence is longer than its criteria sequence is also processed without
any error. -/
theorem c4_counterexample :
    all_channel_indices_to_prune [("t", [10, 11], [1/2, 1/4])] (3/2)
      = some [11, 10]
    ∧ all_channel_indices_to_prune [("t", [10, 11, 12], [1/2, 1/4])] (1/2)
      = some [11] := by
  constructor <;>
    norm_num [all_channel_indices_to_prune, selectTensorLabels,
      index_for_pruning, argsort, prune_channels_num, intTrunc, pySliceTo,
      criteriaLe, lookupAll, List.range_succ, List.insertionSort,
      List.orderedInsert]

/-- C4 amended: the selection loop performs no ratio validation (any
ratio is processed, and whenever the labels cover the criteria indices
the loop succeeds), and a length mismatch is rejected only when some
selected index falls outside the label sequence, in which case the loop
aborts with no selection. -/
theorem c4_no_validation (name : String) (labels : List ℤ) (c : List ℚ) (r : ℚ) :
    ((∃ i ∈ index_for_pruning c r, labels.length ≤ i) →
      all_channel_indices_to_prune [(name, labels, c)] r = none)
    ∧ ((∀ i ∈ index_for_pruning c r, i < labels.length) →
      ∃ out, all_channel_indices_to_prune [(name, labels, c)] r = some out) := by
  constructor
  · rintro ⟨i, hi, hli⟩
    have h : selectTensorLabels labels c r = none := lookupAll_eq_none hi hli
    rw [all_channel_cons, h]
    rfl
  · intro hin
    refine ⟨(index_for_pruning c r).map (fun i => labels.getD i 0), ?_⟩
    rw [all_channel_cons]
    unfold selectTensorLabels
    rw [lookupAll_eq_map hin]
    simp [all_channel_indices_to_prune]

theorem c4_no_validation_witness :
    ∃ out, all_channel_indices_to_prune [("t", [10], [1/4, 1/2])] (1/2)
      = some out :=
  (c4_no_validation "t" [10] [1/4, 1/2] (1/2)).2
    (by
      norm_num [index_for_pruning, argsort, prune_channels_num, intTrunc,
        pySliceTo, criteriaLe, List.range_succ, List.insertionSort,
        List.orderedInsert])

/-- C5: the embedded loop is a pure function of its inputs — any two runs
on the same triples and ratio return the same result, and in particular
the same set of selected labels. -/
theorem c5_deterministic (triples : List (String × List ℤ × List ℚ)) (r : ℚ)
    (out₁ out₂ : Option (List ℤ))
    (h₁ : all_channel_indices_to_prune triples r = out₁)
    (h₂ : all_channel_indices_to_prune triples r = out₂) :
    out₁ = out₂
    ∧ ∀ l₁ l₂, out₁ = some l₁ → out₂ = some l₂ → l₁.toFinset = l₂.toFinset := by
  have h : out₁ = out₂ := by rw [← h₁, ← h₂]
  refine ⟨h, ?_⟩
  rintro l₁ l₂ e₁ e₂
  rw [e₁, e₂] at h
  rw [Option.some.inj h]

theorem c5_deterministic_witness :
    (some [11, 13] : Option (List ℤ)) = some [11, 13] :=
  (c5_deterministic [("t", [10, 11, 12, 13], [1/2, 1/10, 9/10, 3/10])] (1/2)
    (some [11, 13]) (some [11, 13])
    (by
      norm_num [all_channel_indices_to_prune, selectTensorLabels,
        index_for_pruning, argsort, prune_channels_num, intTrunc, pySliceTo,
        criteriaLe, lookupAll, List.range_succ, List.insertionSort,
        List.orderedInsert])
    (by
      norm_num [all_channel_indices_to_prune, selectTensorLabels,
        index_for_pruning, argsort, prune_channels_num, intTrunc, pySliceTo,
        criteriaLe, lookupAll, List.range_succ, List.insertionSort,
        List.orderedInsert])).1

/-- C6: if `⌊len(criteria) * r⌋ = 0` (in particular for ratio `0` or an
empty criteria list) a tensor contributes no labels, and a tensor's
contribution never has more elements than its criteria list. -/
theorem c6_zero_and_bounded (labels : List ℤ) (c : List ℚ) (r : ℚ) :
    (⌊(c.length : ℚ) * r⌋ = 0 → selectTensorLabels labels c r = some [])
    ∧ ∀ out, selectTensorLabels labels c r = some out → out.length ≤ c.length := by
  constructor
  · intro hk
    have hq : (0 : ℚ) ≤ (c.length : ℚ) * r := (Int.floor_eq_zero_iff.mp hk).1
    have hidx : index_for_pruning c r = [] := by
      unfold index_for_pruning prune_channels_num
      rw [intTrunc_of_nonneg hq, hk, pySliceTo_eq_take]
      simp
    unfold selectTensorLabels
    rw [hidx]
    rfl
  · intro out hout
    calc out.length = (index_for_pruning c r).length := lookupAll_length hout
      _ ≤ c.length := index_for_pruning_length_le c r

theorem c6_zero_and_bounded_witness :
    selectTensorLabels [] [] (1/2) = some [] :=
  (c6_zero_and_bounded [] [] (1/2)).1 (by norm_num)

/-- C7: the loop is a homomorphism from concatenation of input triples to
concatenation of outputs, and a single tensor's contribution is a
function of that tensor's labels, criteria and the ratio alone. -/
theorem c7_concatenation_homomorphism
    (t₁ t₂ : List (String × List ℤ × List ℚ)) (r : ℚ) (o₁ o₂ : List ℤ)
    (h₁ : all_channel_indices_to_prune t₁ r = some o₁)
    (h₂ : all_channel_indices_to_prune t₂ r = some o₂) :
    all_channel_indices_to_prune (t₁ ++ t₂) r = some (o₁ ++ o₂)
    ∧ ∀ name labels c,
      all_channel_indices_to_prune [(name, labels, c)] r
        = selectTensorLabels labels c r := by
  constructor
  · rw [all_channel_append, h₁, h₂]
    rfl
  · intro name labels c
    rw [all_channel_cons]
    cases h : selectTensorLabels labels c r <;>
      simp [all_channel_indices_to_prune]

theorem c7_concatenation_homomorphism_witness :
    all_channel_indices_to_prune
        ([("a", [10, 11, 12, 13], [1/2, 1/10, 9/10, 3/10])]
          ++ [("b", [5, 6], [1/3, 1/4])]) (1/2)
      = some ([11, 13] ++ [6]) :=
  (c7_concatenation_homomorphism
    [("a", [10, 11, 12, 13], [1/2, 1/10, 9/10, 3/10])]
    [("b", [5, 6], [1/3, 1/4])] (1/2) [11, 13] [6]
    (by
      norm_num [all_channel_indices_to_prune, selectTensorLabels,
        index_for_pruning, argsort, prune_channels_num, intTrunc, pySliceTo,
        criteriaLe, lookupAll, List.range_succ, List.insertionSort,
        List.orderedInsert])
    (by
      norm_num [all_channel_indices_to_prune, selectTensorLabels,
        index_for_pruning, argsort, prune_channels_num, intTrunc, pySliceTo,
        criteriaLe, lookupAll, List.range_succ, List.insertionSort,
        List.orderedInsert])).1

/-- C8: on criteria `[0.5, 0.1, 0.9, 0.3]`, labels `[10, 11, 12, 13]` and
ratio `0.5` the loop returns exactly the labels `{11, 13}` (the indices of
the two smallest values `0.1` and `0.3`), and on empty criteria and labels
it returns the empty selection. -/
theorem c8_concrete_examples :
    (all_channel_indices_to_prune
        [("t", [10, 11, 12, 13], [1/2, 1/10, 9/10, 3/10])] (1/2)
        = some [11, 13]
      ∧ ([11, 13] : List ℤ).toFinset = ({11, 13} : Finset ℤ))
    ∧ all_channel_indices_to_prune [("t", [], [])] (1/2) = some [] := by
  refine ⟨⟨?_, by decide⟩, ?_⟩
  · norm_num [all_channel_indices_to_prune, selectTensorLabels,
      index_for_pruning, argsort, prune_channels_num, intTrunc, pySliceTo,
      criteriaLe, lookupAll, List.range_succ, List.insertionSort,
      List.orderedInsert]
  · norm_num [all_channel_indices_to_prune, selectTensorLabels,
      index_for_pruning, argsort, prune_channels_num, intTrunc, pySliceTo,
      criteriaLe, lookupAll, List.range_succ, List.insertionSort,
      List.orderedInsert]

/-- C9: whenever a tensor's label sequence is at least as long as its
criteria sequence, every index the selector reads is a valid position
below the criteria length, and the `Option`-valued label lookup never
returns `none`. -/
theorem c9_lookup_in_bounds (labels : List ℤ) (c : List ℚ) (r : ℚ)
    (h : c.length ≤ labels.length) :
    (∀ i ∈ index_for_pruning c r, i < c.length)
    ∧ ∃ out, selectTensorLabels labels c r = some out :=
  ⟨fun _ hi => mem_index_for_pruning_lt hi,
   ⟨_, selectTensorLabels_eq_map r h⟩⟩

theorem c9_lookup_in_bounds_witness :
    ∃ out, selectTensorLabels [10, 11, 12, 13] [1/2, 1/10, 9/10, 3/10] (1/2)
      = some out :=
  (c9_lookup_in_bounds [10, 11, 12, 13] [1/2, 1/10, 9/10, 3/10] (1/2)
    (by norm_num)).2

/-- C10: the indices chosen for any tensor are pairwise distinct
positions, and with a ratio in `(0,1)` and label sequences covering their
criteria the loop succeeds with total output length equal to the sum over
the tensors of `⌊len(criteria) * r⌋`. -/
theorem c10_distinct_and_total_count
    (triples : List (String × List ℤ × List ℚ)) (r : ℚ)
    (h0 : 0 < r) (h1 : r < 1)
    (hlen : ∀ t ∈ triples, t.2.2.length ≤ t.2.1.length) :
    (∀ t ∈ triples, (index_for_pruning t.2.2 r).Nodup)
    ∧ ∃ out, all_channel_indices_to_prune triples r = some out ∧
        (out.length : ℤ) =
          (triples.map (fun t => ⌊(t.2.2.length : ℚ) * r⌋)).sum :=
  ⟨fun t _ => index_for_pruning_nodup t.2.2 r,
   all_channel_total_length r h0 h1 triples hlen⟩

theorem c10_distinct_and_total_count_witness :
    ∃ out, all_channel_indices_to_prune
        [("a", [10, 11, 12, 13], [1/2, 1/10, 9/10, 3/10]),
         ("b", [5, 6], [1/3, 1/4])] (1/2) = some out ∧
      (out.length : ℤ) =
        (([("a", [10, 11, 12, 13], [1/2, 1/10, 9/10, 3/10]),
           ("b", [5, 6], [1/3, 1/4])] :
             List (String × List ℤ × List ℚ)).map
          (fun t => ⌊(t.2.2.length : ℚ) * (1/2)⌋)).sum :=
  (c10_distinct_and_total_count
    [("a", [10, 11, 12, 13], [1/2, 1/10, 9/10, 3/10]),
     ("b", [5, 6], [1/3, 1/4])] (1/2)
    (by norm_num) (by norm_num)
    (by
      rintro t ht
      rcases List.mem_cons.mp ht with rfl | ht'
      · norm_num
      · rcases List.mem_singleton.mp ht' with rfl
        norm_num)).2
